import Mathlib

set_option maxHeartbeats 1000000
set_option maxRecDepth 4000

/-!
Shallow embedding of the text-chunking engine of the `n8n-services` repository:
`api/text_splitter/utils.py`, `api/text_splitter/chatGPT-refactory.py`,
`api/text_splitter/main.py`, and `api/text_splitter_langchain/utils.py` /
`models.py`.

Python strings are modelled as lists of Unicode codepoints (`List Char`), so
Python's codepoint-based `len`/slicing and UTF-8 byte counts are distinct
notions, as they are in the source.
-/

/-- A Python string: its sequence of Unicode codepoints. -/
abbrev PyStr := List Char

/-- Number of bytes of the UTF-8 encoding of one codepoint
(what one character contributes to `len(s.encode("utf-8"))`). -/
def charBytes (c : Char) : Nat :=
  if c.val < 0x80 then 1
  else if c.val < 0x800 then 2
  else if c.val < 0x10000 then 3
  else 4

/-- Python `len(s.encode("utf-8"))`: the UTF-8 byte length of a string. -/
def utf8Len (s : PyStr) : Nat := (s.map charBytes).sum

/-- Python `sep.join(xs)`. -/
def pyJoin (sep : PyStr) : List PyStr → PyStr
  | [] => []
  | x :: xs => x ++ xs.flatMap (fun y => sep ++ y)

/-- Python `s[-k:]`, including the `k = 0` edge case: `s[-0:]` is `s[0:]`,
i.e. the whole string, while for `k > 0` it is the trailing
`min(k, len(s))` characters. -/
def pyTail (k : Nat) (s : PyStr) : PyStr :=
  if k = 0 then s else s.drop (s.length - k)

/-- Python `s[a:b]` for non-negative bounds: clamps at the end of the string
and is empty when `b ≤ a`. -/
def pySlice (s : PyStr) (a b : Nat) : PyStr := (s.drop a).take (b - a)

/-- The ASCII whitespace characters recognized by Python's default
`str.strip()` / `str.split()`. -/
def pySpaceChar (c : Char) : Bool :=
  c = ' ' || c = '\t' || c = '\n' || c = '\r' || c = '\x0b' || c = '\x0c'

/-- Helper loop for Python `str.split()` (split on whitespace runs,
discarding empty pieces); `cur` holds the current word reversed. -/
def pySplitWsGo : List Char → PyStr → List PyStr
  | cur, [] => if cur = [] then [] else [cur.reverse]
  | cur, c :: cs =>
    if pySpaceChar c then
      (if cur = [] then [] else [cur.reverse]) ++ pySplitWsGo [] cs
    else pySplitWsGo (c :: cur) cs

/-- Python `text.split()` with no argument, used by
`TextSplitter._split_words` in `utils.py`. -/
def pySplitWs (s : PyStr) : List PyStr := pySplitWsGo [] s

/-- Python `text.find(pat, start)` restricted to non-negative `start`,
returning `none` instead of `-1`: the least index `i ≥ start` at which
`pat` occurs in `text`. -/
def pyFind (text pat : PyStr) (start : Nat) : Option Nat :=
  (List.range (text.length + 1)).find?
    (fun i => decide (start ≤ i) && pat.isPrefixOf (text.drop i))

/-! ### ChunkAssembler (`TextSplitter._create_chunks`)

The loop state of `_create_chunks`: the chunks emitted so far, the current
accumulation `current_chunk`, and `current_length`. The same loop appears in
`utils.py` (joining units with `"\n"`) and in `chatGPT-refactory.py` /
`Claude-refactor.py` (joining with `" "`), so the separator is a parameter. -/

structure AsmState where
  chunks : List PyStr
  cur : List PyStr
  curLen : Nat

/-- One iteration of the `for unit in units` loop of
`TextSplitter._create_chunks`: an oversized unit (`len(unit) > chunk_size`)
flushes any pending accumulation and is emitted alone; a fitting unit
(`current_length + unit_length <= chunk_size`) is appended to the
accumulation; otherwise the accumulation is flushed and restarted with the
unit. Lengths are Python `len`, i.e. codepoint counts, and the join
separator is not added to `current_length`. -/
def stepUnit (sep : PyStr) (size : Nat) (st : AsmState) (u : PyStr) : AsmState :=
  if size < u.length then
    ⟨st.chunks ++ (if st.cur = [] then [] else [pyJoin sep st.cur]) ++ [u], [], 0⟩
  else if st.curLen + u.length ≤ size then
    ⟨st.chunks, st.cur ++ [u], st.curLen + u.length⟩
  else
    ⟨st.chunks ++ [pyJoin sep st.cur], [u], u.length⟩

/-- The flush of any remaining accumulation after the loop of
`TextSplitter._create_chunks`. -/
def finalizeAsm (sep : PyStr) (st : AsmState) : List PyStr :=
  st.chunks ++ (if st.cur = [] then [] else [pyJoin sep st.cur])

/-- The chunk list built by `TextSplitter._create_chunks` before its
trailing call to `_add_overlap` (the assembler proper). -/
def createChunksPre (sep : PyStr) (size : Nat) (units : List PyStr) : List PyStr :=
  finalizeAsm sep (units.foldl (stepUnit sep size) ⟨[], [], 0⟩)

/-! ### OverlapWeaver (`TextSplitter._add_overlap`) -/

/-- The loop body of `TextSplitter._add_overlap` for indices `i > 0`:
`chunks[i-1][-overlap_size:] + "\n" + chunks[i]`, where `prev` is the
pre-overlap chunk `i-1`. -/
def weaveAux (ov : Nat) (prev : PyStr) : List PyStr → List PyStr
  | [] => []
  | c :: cs => (pyTail ov prev ++ '\n' :: c) :: weaveAux ov c cs

/-- Model of `TextSplitter._add_overlap`: lists of length at most one pass
through unchanged; otherwise chunk 0 is kept and every later chunk gets the
previous pre-overlap chunk's `[-overlap_size:]` slice plus a newline
prepended. -/
def addOverlap (ov : Nat) (chunks : List PyStr) : List PyStr :=
  if chunks.length ≤ 1 then chunks
  else
    match chunks with
    | [] => []
    | c :: cs => c :: weaveAux ov c cs

/-- Model of `TextSplitter._create_chunks` including its trailing
`_add_overlap` call, as in `utils.py`. -/
def utilsCreateChunks (sep : PyStr) (size ov : Nat) (units : List PyStr) : List PyStr :=
  addOverlap ov (createChunksPre sep size units)

/-- Model of `TextSplitter.split` of `utils.py`, with the strategy's
segmentation function abstracted as `seg`: the `if not text.strip():
return []` check runs before any segmentation, then the units are packed
and overlapped. `utils.py` joins with a newline. -/
def utilsSplit (seg : PyStr → List PyStr) (size ov : Nat) (text : PyStr) : List PyStr :=
  if text.all pySpaceChar then []
  else utilsCreateChunks ['\n'] size ov (seg text)

/-- Model of the oversized-chunk count of `api/text_splitter/main.py`
(`split_text`): the number of chunks of the final (post-overlap) chunk list
whose Python `len` exceeds `chunk_size`. -/
def oversizedCount (size : Nat) (chunks : List PyStr) : Nat :=
  (chunks.filter (fun c => size < c.length)).length

/-! ### Configuration validation -/

/-- Model of `TextSplitter.validate_params` of `utils.py`: rejects
`chunk_size <= 0`, negative overlap, and `overlap_size >= chunk_size`. -/
def validateParamsU (chunkSize overlapSize : Int) : Except String Unit :=
  if chunkSize ≤ 0 then .error "Chunk size must be positive"
  else if overlapSize < 0 then .error "Overlap size cannot be negative"
  else if chunkSize ≤ overlapSize then .error "Overlap size must be less than chunk size"
  else .ok ()

/-- Model of `TextSplitter.validate_params` of `chatGPT-refactory.py`
(`MIN_CHUNK_SIZE = 10`): rejects `chunk_size < 10`, negative overlap, and
`overlap_size >= chunk_size`. -/
def validateParamsG (chunkSize overlapSize : Int) : Except String Unit :=
  if chunkSize < 10 then .error "Chunk size must be at least 10"
  else if overlapSize < 0 then .error "Overlap size cannot be negative"
  else if chunkSize ≤ overlapSize then .error "Overlap size must be smaller than chunk size"
  else .ok ()

/-- The configuration recorded by a successfully constructed splitter. -/
structure SplitterCfg where
  chunkSize : Int
  overlapSize : Int

/-- Model of `TextSplitter.__init__` of `utils.py`: `validate_params` runs
first; only on success are the fields recorded (no splitting work happens
on rejection, since no splitter object exists). -/
def mkSplitterU (chunkSize overlapSize : Int) : Except String SplitterCfg := do
  let _ ← validateParamsU chunkSize overlapSize
  pure ⟨chunkSize, overlapSize⟩

/-- Model of `TextSplitter.__init__` of `chatGPT-refactory.py`. -/
def mkSplitterG (chunkSize overlapSize : Int) : Except String SplitterCfg := do
  let _ ← validateParamsG chunkSize overlapSize
  pure ⟨chunkSize, overlapSize⟩

/-! ### text_splitter_langchain: positions and integrity -/

/-- One positioned record: the fields of `ChunkInfo` relevant here
(`text`, `start_position`, `end_position`); the `size` field of a
constructed `ChunkInfo` is `len(text.encode("utf-8"))`, i.e.
`utf8Len text`. -/
structure ChunkRec where
  text : PyStr
  startPos : Nat
  endPos : Nat

/-- The cursor loop of `TextSplitterService._get_chunk_positions`: look for
the chunk from the cursor on; on a hit record
`[match_start, match_start + len(chunk))` and move the cursor to the match
end; otherwise record the next `len(chunk)` positions from the cursor. -/
def chunkPositionsGo (text : PyStr) : Nat → List PyStr → List (Nat × Nat)
  | _, [] => []
  | s, c :: cs =>
    match pyFind text c s with
    | some i => (i, i + c.length) :: chunkPositionsGo text (i + c.length) cs
    | none => (s, s + c.length) :: chunkPositionsGo text (s + c.length) cs

/-- Model of `TextSplitterService._get_chunk_positions` (cursor starts at 0). -/
def getChunkPositions (text : PyStr) (chunks : List PyStr) : List (Nat × Nat) :=
  chunkPositionsGo text 0 chunks

/-- The per-record loop of `TextSplitterService.validate_chunk_integrity`:
`start_position < last_position` raises "overlap",
`start_position > last_position` raises "gap", a text differing from the
original's `[start_position:end_position]` slice raises "mismatch";
otherwise the cursor moves to `end_position`. -/
def validateLoop (orig : PyStr) : Nat → List ChunkRec → Except String Unit
  | _, [] => .ok ()
  | lastPos, r :: rs =>
    if r.startPos < lastPos then .error "Invalid chunk position: overlap detected"
    else if lastPos < r.startPos then .error "Gap detected between chunks"
    else if r.text ≠ pySlice orig r.startPos r.endPos then .error "Chunk content mismatch"
    else validateLoop orig r.endPos rs

/-- Model of `TextSplitterService.validate_chunk_integrity`: the record
loop starting from position 0, then the coverage check comparing the UTF-8
byte length of the original with that of the concatenated record texts. -/
def validateChunkIntegrity (orig : PyStr) (recs : List ChunkRec) : Except String Unit :=
  match validateLoop orig 0 recs with
  | .error e => .error e
  | .ok () =>
    if utf8Len orig ≠ utf8Len ((recs.map ChunkRec.text).flatten) then
      .error "Not all text is accounted for in chunks"
    else .ok ()

/-- Model of `TextInput.validate_text` of
`api/text_splitter_langchain/models.py`: empty or all-whitespace text is
rejected first, then the 10MB byte bound; the UTF-8 round-trip check always
succeeds on a well-formed string and is omitted. -/
def validateTextInput (t : PyStr) : Except String PyStr :=
  if t.all pySpaceChar then .error "Text cannot be empty or just whitespace"
  else if 10 * 1024 * 1024 < utf8Len t then .error "Text length exceeds maximum allowed size"
  else .ok t

/-! ### Relational contiguity helpers -/

/-- Contiguity of two positioned records: the first ends exactly where the
second starts. -/
def recContig (a b : ChunkRec) : Prop := a.endPos = b.startPos

instance : DecidablePred (fun p : ChunkRec × ChunkRec => recContig p.1 p.2) :=
  fun p => by unfold recContig; infer_instance

/-- Chained contiguity from a given cursor: each record starts exactly at
the cursor and moves it to its end position. -/
def chainFrom (p : Nat) : List ChunkRec → Prop
  | [] => True
  | r :: rs => r.startPos = p ∧ chainFrom r.endPos rs

/-! ### Spec-side assembler definitions

`specAssembleGo` states the assembler the way the amended claim C5 words
it (left-to-right greedy packing over codepoint lengths, separator not
counted toward the running length); `specAssembleCountedGo` states it the
way claim C5 is written (the single separator counted toward the budget).
They are compared with `createChunksPre`, the embedding of the source. -/

/-- Modelled from the amended claim's words: greedy packing where the
running length is the sum of the units' codepoint lengths, the separator
not counted. -/
def specAssembleGo (sep : PyStr) (size : Nat) (cur : List PyStr) (curLen : Nat) :
    List PyStr → List PyStr
  | [] => if cur = [] then [] else [pyJoin sep cur]
  | u :: us =>
    if size < u.length then
      (if cur = [] then [] else [pyJoin sep cur]) ++ u :: specAssembleGo sep size [] 0 us
    else if curLen + u.length ≤ size then
      specAssembleGo sep size (cur ++ [u]) (curLen + u.length) us
    else
      pyJoin sep cur :: specAssembleGo sep size [u] u.length us

/-- The assembler as the amended claim C5 words it. -/
def specAssemble (sep : PyStr) (size : Nat) (units : List PyStr) : List PyStr :=
  specAssembleGo sep size [] 0 units

/-- The assembler as claim C5 is written: the separator's length is counted
toward the running budget when deciding whether a unit still fits. -/
def specAssembleCountedGo (sep : PyStr) (size : Nat) (cur : List PyStr) (curLen : Nat) :
    List PyStr → List PyStr
  | [] => if cur = [] then [] else [pyJoin sep cur]
  | u :: us =>
    if size < u.length then
      (if cur = [] then [] else [pyJoin sep cur]) ++ u :: specAssembleCountedGo sep size [] 0 us
    else if curLen + (if cur = [] then 0 else sep.length) + u.length ≤ size then
      specAssembleCountedGo sep size (cur ++ [u])
        (curLen + (if cur = [] then 0 else sep.length) + u.length) us
    else
      pyJoin sep cur :: specAssembleCountedGo sep size [u] u.length us

/-- The separator-counting assembler of claim C5, from the empty state. -/
def specAssembleCounted (sep : PyStr) (size : Nat) (units : List PyStr) : List PyStr :=
  specAssembleCountedGo sep size [] 0 units

/-! ### ResourceGuard model (`time_limit` / `memory_limit` /
`TextSplitterService.split_text`)

The guard manipulates process-wide state (an `RLIMIT_AS` value and a
`SIGALRM` alarm); only the exception flow and the restored limit values are
modelled. Outcomes of the wrapped body are values of `Except PyErr Unit`. -/

/-- The error taxonomy of the langchain splitter service. -/
inductive PyErr where
  | timeoutBreach
  | memoryBreach
  | validationFault
  | configFault
  deriving DecidableEq

/-- Model of the `memory_limit` context manager of
`api/text_splitter_langchain/utils.py`: the `try` block both sets the new
limit and contains the `yield`, so its `except Exception` clause catches
any exception the body raises and re-raises it as `MemoryError`; the
`finally` block restores the original limit on every path. The result is
(outcome, RLIMIT_AS value after exit). -/
def memoryLimitRun (origLimit maxBytes : Nat) (body : Except PyErr Unit) :
    Except PyErr Unit × Nat :=
  (match body with
   | .ok _ => .ok ()
   | .error _ => .error .memoryBreach,
   origLimit)

/-- Model of the `time_limit` context manager: it installs the alarm, has
no `except` clause (the body's outcome passes through unchanged), and its
`finally` cancels the alarm with `signal.alarm(0)`. The result is
(outcome, pending alarm seconds after exit). -/
def timeLimitRun (seconds : Nat) (body : Except PyErr Unit) :
    Except PyErr Unit × Nat :=
  (body, 0)

/-- Model of the guard structure of `TextSplitterService.split_text`:
`time_limit` around `memory_limit` around the splitting body, then the
`except TimeoutError` / `except MemoryError` / bare `except` re-raise
chain. Returns (outcome, restored RLIMIT_AS, pending alarm). -/
def splitTextGuard (seconds origLimit maxBytes : Nat) (body : Except PyErr Unit) :
    Except PyErr Unit × Nat × Nat :=
  let m := memoryLimitRun origLimit maxBytes body
  let t := timeLimitRun seconds m.1
  let out : Except PyErr Unit :=
    match t.1 with
    | .error .timeoutBreach => .error .timeoutBreach
    | .error .memoryBreach => .error .memoryBreach
    | .error e => .error e
    | .ok _ => .ok ()
  (out, m.2, t.2)

/-! ## Helper lemmas -/

/-- The mutable-list loop of `_create_chunks` (a fold over `AsmState`)
computes the same chunk list as the structural recursion `specAssembleGo`,
for any starting state. -/
theorem foldl_specGo (sep : PyStr) (size : Nat) :
    ∀ (units : List PyStr) (chunks cur : List PyStr) (curLen : Nat),
    finalizeAsm sep (units.foldl (stepUnit sep size) ⟨chunks, cur, curLen⟩) =
      chunks ++ specAssembleGo sep size cur curLen units := by
  intro units
  induction units with
  | nil =>
    intro chunks cur curLen
    simp [finalizeAsm, specAssembleGo]
  | cons u us ih =>
    intro chunks cur curLen
    rw [List.foldl_cons]
    by_cases h1 : size < u.length
    · rw [show stepUnit sep size ⟨chunks, cur, curLen⟩ u =
          ⟨chunks ++ (if cur = [] then [] else [pyJoin sep cur]) ++ [u], [], 0⟩ from by
        simp [stepUnit, h1]]
      rw [ih]
      simp [specAssembleGo, h1, List.append_assoc]
    · by_cases h2 : curLen + u.length ≤ size
      · rw [show stepUnit sep size ⟨chunks, cur, curLen⟩ u =
            ⟨chunks, cur ++ [u], curLen + u.length⟩ from by simp [stepUnit, h1, h2]]
        rw [ih]
        simp [specAssembleGo, h1, h2]
      · rw [show stepUnit sep size ⟨chunks, cur, curLen⟩ u =
            ⟨chunks ++ [pyJoin sep cur], [u], u.length⟩ from by simp [stepUnit, h1, h2]]
        rw [ih]
        simp [specAssembleGo, h1, h2, List.append_assoc]

/-- The assembler stage of `_create_chunks` equals the structural recursion
started from the empty state. -/
theorem createChunksPre_eq_specGo (sep : PyStr) (size : Nat) (units : List PyStr) :
    createChunksPre sep size units = specAssembleGo sep size [] 0 units := by
  unfold createChunksPre
  simpa using foldl_specGo sep size units [] [] 0

/-- Every unit whose codepoint length exceeds the budget appears verbatim
in the output of the assembler recursion, from any state. -/
theorem specGo_oversized_mem (sep : PyStr) (size : Nat) :
    ∀ (units cur : List PyStr) (curLen : Nat) (u : PyStr),
    u ∈ units → size < u.length → u ∈ specAssembleGo sep size cur curLen units := by
  intro units
  induction units with
  | nil =>
    intro cur curLen u h
    simp at h
  | cons v vs ih =>
    intro cur curLen u hu hov
    rcases List.mem_cons.mp hu with rfl | hmem
    · simp [specAssembleGo, hov]
    · by_cases h1 : size < v.length
      · have := ih [] 0 u hmem hov
        simp [specAssembleGo, h1, this]
      · by_cases h2 : curLen + v.length ≤ size
        · simp only [specAssembleGo, if_neg h1, if_pos h2]
          exact ih _ _ u hmem hov
        · simp only [specAssembleGo, if_neg h1, if_neg h2]
          exact List.mem_cons_of_mem _ (ih _ _ u hmem hov)

/-- Index characterization of the weave loop: element `i` of
`weaveAux ov prev cs` is the `[-ov:]` tail of element `i` of `prev :: cs`
(the pre-overlap predecessor) followed by a newline and element `i` of
`cs`. -/
theorem weave_get? (ov : Nat) :
    ∀ (cs : List PyStr) (prev : PyStr) (i : Nat) (x y : PyStr),
    (prev :: cs).get? i = some x → cs.get? i = some y →
    (weaveAux ov prev cs).get? i = some (pyTail ov x ++ '\n' :: y) := by
  intro cs
  induction cs with
  | nil =>
    intro prev i x y _ h2
    simp at h2
  | cons c cs ih =>
    intro prev i x y h1 h2
    cases i with
    | zero =>
      simp only [List.get?_cons_zero, Option.some.injEq] at h1 h2
      subst h1
      subst h2
      rfl
    | succ j =>
      simp only [List.get?_cons_succ] at h1 h2
      simpa only [weaveAux, List.get?_cons_succ] using ih c j x y h1 h2

/-- The weave loop preserves length. -/
theorem weaveAux_length (ov : Nat) :
    ∀ (cs : List PyStr) (prev : PyStr), (weaveAux ov prev cs).length = cs.length := by
  intro cs
  induction cs with
  | nil => intro prev; rfl
  | cons c cs ih => intro prev; simp [weaveAux, ih]

/-- Shape of every chunk the assembler recursion emits: it is either a unit
of the ambient list `U` whose length exceeds the budget, or the join of a
nonempty group of units of `U` whose codepoint lengths sum to at most the
budget. The state invariants are that `curLen` is the sum of the current
accumulation's lengths and, when nonempty, at most the budget. -/
theorem specGo_chunk_shape (sep : PyStr) (size : Nat) (U : List PyStr) :
    ∀ (units cur : List PyStr) (curLen : Nat),
    (∀ u ∈ units, u ∈ U) →
    (∀ x ∈ cur, x ∈ U) →
    curLen = (cur.map List.length).sum →
    (cur ≠ [] → curLen ≤ size) →
    ∀ c ∈ specAssembleGo sep size cur curLen units,
      (∃ u ∈ U, c = u ∧ size < u.length) ∨
      (∃ g : List PyStr, g ≠ [] ∧ (∀ x ∈ g, x ∈ U) ∧ c = pyJoin sep g ∧
        (g.map List.length).sum ≤ size) := by
  intro units
  induction units with
  | nil =>
    intro cur curLen _ hcur hlen hbound c hc
    by_cases hemp : cur = []
    · simp [specAssembleGo, hemp] at hc
    · simp only [specAssembleGo, if_neg hemp, List.mem_singleton] at hc
      subst hc
      exact Or.inr ⟨cur, hemp, hcur, rfl, by rw [← hlen]; exact hbound hemp⟩
  | cons v vs ih =>
    intro cur curLen hunits hcur hlen hbound c hc
    have hvU : v ∈ U := hunits v (List.mem_cons_self v vs)
    have hvsU : ∀ u ∈ vs, u ∈ U := fun u hu => hunits u (List.mem_cons_of_mem v hu)
    by_cases h1 : size < v.length
    · simp only [specAssembleGo, if_pos h1, List.mem_append, List.mem_cons] at hc
      rcases hc with hc | hc | hc
      · by_cases hemp : cur = []
        · simp [hemp] at hc
        · simp only [if_neg hemp, List.mem_singleton] at hc
          subst hc
          exact Or.inr ⟨cur, hemp, hcur, rfl, by rw [← hlen]; exact hbound hemp⟩
      · exact Or.inl ⟨v, hvU, hc, h1⟩
      · exact ih [] 0 hvsU (by simp) (by simp) (by simp) c hc
    · by_cases h2 : curLen + v.length ≤ size
      · refine ih (cur ++ [v]) (curLen + v.length) hvsU ?_ ?_ ?_ c
          (by simpa only [specAssembleGo, if_neg h1, if_pos h2] using hc)
        · intro x hx
          rcases List.mem_append.mp hx with hx | hx
          · exact hcur x hx
          · simp only [List.mem_singleton] at hx
            subst hx
            exact hvU
        · simp [hlen]
        · intro _
          exact h2
      · have hemp : cur ≠ [] := by
          intro h
          subst h
          simp at hlen
          omega
        simp only [specAssembleGo, if_neg h1, if_neg h2, List.mem_cons] at hc
        rcases hc with hc | hc
        · subst hc
          exact Or.inr ⟨cur, hemp, hcur, rfl, by rw [← hlen]; exact hbound hemp⟩
        · refine ih [v] v.length hvsU ?_ (by simp) (fun _ => by omega) c hc
          intro x hx
          simp only [List.mem_singleton] at hx
          subst hx
          exact hvU

/-- A Python join of a nonempty group of nonempty strings is nonempty. -/
theorem pyJoin_ne_nil (sep : PyStr) (g : List PyStr) (hg : g ≠ [])
    (hx : ∀ x ∈ g, x ≠ []) : pyJoin sep g ≠ [] := by
  match g with
  | x :: xs =>
    have hxne : x ≠ [] := hx x (List.mem_cons_self x xs)
    simp only [pyJoin, ne_eq, List.append_eq_nil]
    intro h
    exact hxne h.1

/-- Every element the weave loop emits contains the inserted newline and is
therefore nonempty. -/
theorem weave_mem_ne (ov : Nat) :
    ∀ (cs : List PyStr) (prev c : PyStr), c ∈ weaveAux ov prev cs → c ≠ [] := by
  intro cs
  induction cs with
  | nil =>
    intro prev c h
    simp [weaveAux] at h
  | cons c1 cs1 ih =>
    intro prev c h
    rcases List.mem_cons.mp h with rfl | h
    · simp [List.append_eq_nil]
    · exact ih c1 c h

/-- `_add_overlap` preserves nonemptiness of every chunk. -/
theorem addOverlap_ne_nil (ov : Nat) (chunks : List PyStr)
    (h : ∀ x ∈ chunks, x ≠ []) : ∀ c ∈ addOverlap ov chunks, c ≠ [] := by
  intro c hc
  unfold addOverlap at hc
  by_cases hle : chunks.length ≤ 1
  · rw [if_pos hle] at hc
    exact h c hc
  · rw [if_neg hle] at hc
    match chunks, h, hc with
    | c0 :: cs, h, hc =>
      rcases List.mem_cons.mp hc with rfl | hc
      · exact h c (List.mem_cons_self _ _)
      · exact weave_mem_ne ov cs c0 c hc

/-- A successful `text.find(pat, start)` returns an index at or after
`start`. -/
theorem pyFind_ge (text pat : PyStr) (s i : Nat) (h : pyFind text pat s = some i) :
    s ≤ i := by
  unfold pyFind at h
  have hp := List.find?_some h
  simp only [Bool.and_eq_true, decide_eq_true_eq] at hp
  exact hp.1

/-- The position loop produces one record per chunk. -/
theorem chunkPositionsGo_length (text : PyStr) :
    ∀ (chunks : List PyStr) (s : Nat),
    (chunkPositionsGo text s chunks).length = chunks.length := by
  intro chunks
  induction chunks with
  | nil => intro s; rfl
  | cons c cs ih =>
    intro s
    unfold chunkPositionsGo
    cases hf : pyFind text c s <;> simp [ih]

/-- Each record of the position loop spans exactly the codepoint length of
its chunk: `end - start = len(chunk)` in both the match and the fallback
branch. -/
theorem chunkPositionsGo_get? (text : PyStr) :
    ∀ (chunks : List PyStr) (s i : Nat) (c : PyStr), chunks.get? i = some c →
    ∃ p : Nat × Nat, (chunkPositionsGo text s chunks).get? i = some p ∧
      p.2 - p.1 = c.length := by
  intro chunks
  induction chunks with
  | nil =>
    intro s i c h
    simp at h
  | cons c0 cs ih =>
    intro s i c h
    cases i with
    | zero =>
      simp only [List.get?_cons_zero, Option.some.injEq] at h
      subst h
      unfold chunkPositionsGo
      cases hf : pyFind text c0 s with
      | none => exact ⟨(s, s + c0.length), by simp [hf], by omega⟩
      | some j => exact ⟨(j, j + c0.length), by simp [hf], by omega⟩
    | succ n =>
      simp only [List.get?_cons_succ] at h
      unfold chunkPositionsGo
      cases hf : pyFind text c0 s with
      | none => simpa using ih (s + c0.length) n c h
      | some j => simpa using ih (j + c0.length) n c h

/-- The first record the position loop produces starts at or after the
cursor. -/
theorem chunkPositionsGo_head_ge (text : PyStr) (chunks : List PyStr) (s : Nat)
    (p : Nat × Nat) (h : (chunkPositionsGo text s chunks).head? = some p) : s ≤ p.1 := by
  cases chunks with
  | nil => simp [chunkPositionsGo] at h
  | cons c cs =>
    unfold chunkPositionsGo at h
    cases hf : pyFind text c s with
    | none =>
      rw [hf] at h
      simp only [List.head?_cons, Option.some.injEq] at h
      subst h
      exact le_refl s
    | some j =>
      rw [hf] at h
      simp only [List.head?_cons, Option.some.injEq] at h
      subst h
      exact pyFind_ge text c s j hf

/-- Start positions of the position loop are non-decreasing. -/
theorem chunkPositionsGo_chain (text : PyStr) :
    ∀ (chunks : List PyStr) (s : Nat),
    List.Chain' (fun a b : Nat × Nat => a.1 ≤ b.1) (chunkPositionsGo text s chunks) := by
  intro chunks
  induction chunks with
  | nil => intro s; simp [chunkPositionsGo]
  | cons c cs ih =>
    intro s
    unfold chunkPositionsGo
    cases hf : pyFind text c s with
    | none =>
      rw [List.chain'_cons']
      refine ⟨?_, ih _⟩
      intro b hb
      have := chunkPositionsGo_head_ge text cs (s + c.length) b hb
      simp only
      omega
    | some j =>
      rw [List.chain'_cons']
      refine ⟨?_, ih _⟩
      intro b hb
      have := chunkPositionsGo_head_ge text cs (j + c.length) b hb
      simp only
      omega

/-- UTF-8 byte length distributes over concatenation. -/
theorem utf8Len_append (a b : PyStr) : utf8Len (a ++ b) = utf8Len a + utf8Len b := by
  simp [utf8Len]

/-- UTF-8 byte length of a flattened list of strings. -/
theorem utf8Len_flatten (l : List PyStr) :
    utf8Len l.flatten = (l.map utf8Len).sum := by
  induction l with
  | nil => rfl
  | cons x xs ih => simp [utf8Len_append, ih]

/-- The sum of the records' byte lengths equals the byte length of the
concatenation of their texts (the `reconstructed_text` of the code). -/
theorem sum_bytes_eq (recs : List ChunkRec) :
    (recs.map (fun r => utf8Len r.text)).sum = utf8Len ((recs.map ChunkRec.text).flatten) := by
  rw [utf8Len_flatten, List.map_map]
  rfl

/-- Every codepoint occupies at least one byte in UTF-8. -/
theorem charBytes_pos (c : Char) : 1 ≤ charBytes c := by
  unfold charBytes
  split_ifs <;> omega

/-- A nonempty string has positive UTF-8 byte length. -/
theorem utf8Len_pos (s : PyStr) (h : s ≠ []) : 1 ≤ utf8Len s := by
  match s with
  | c :: cs =>
    have := charBytes_pos c
    simp only [utf8Len, List.map_cons, List.sum_cons]
    omega

/-- Splitting a string at any index splits its byte length. -/
theorem utf8Len_split (s : PyStr) (n : Nat) :
    utf8Len s = utf8Len (s.take n) + utf8Len (s.drop n) := by
  conv_lhs => rw [← List.take_append_drop n s]
  rw [utf8Len_append]

/-- A prefix has no more bytes than the whole. -/
theorem utf8Len_take_le (s : PyStr) (n : Nat) : utf8Len (s.take n) ≤ utf8Len s := by
  rw [utf8Len_split s n]
  omega

/-- Adjacent Python slices concatenate. -/
theorem pySlice_append (s : PyStr) (a b c : Nat) (hab : a ≤ b) (hbc : b ≤ c) :
    pySlice s a b ++ pySlice s b c = pySlice s a c := by
  unfold pySlice
  have h1 : (s.drop a).drop (b - a) = s.drop b := by
    rw [List.drop_drop]
    congr 1
    omega
  rw [← h1]
  have h2 : c - a = (b - a) + (c - b) := by omega
  rw [h2, List.take_add]

/-- A nonempty Python slice has its start strictly before its stop and
strictly inside the string. -/
theorem pySlice_ne_nil (s : PyStr) (a b : Nat) (h : pySlice s a b ≠ []) :
    a < b ∧ a < s.length := by
  unfold pySlice at h
  constructor
  · by_contra hab
    push_neg at hab
    have hz : b - a = 0 := by omega
    rw [hz] at h
    simp at h
  · by_contra ha
    push_neg at ha
    have hz : s.drop a = [] := List.drop_eq_nil_of_le ha
    rw [hz] at h
    simp at h

/-- Chained contiguity from a cursor is equivalent to: the head (if any)
starts at the cursor, and consecutive records are contiguous. -/
theorem chainFrom_iff :
    ∀ (recs : List ChunkRec) (p : Nat),
    chainFrom p recs ↔
      (∀ r ∈ recs.head?, r.startPos = p) ∧ List.Chain' recContig recs := by
  intro recs
  induction recs with
  | nil => intro p; simp [chainFrom]
  | cons r rs ih =>
    intro p
    unfold chainFrom
    rw [ih r.endPos, List.chain'_cons']
    simp only [recContig, List.head?_cons, Option.mem_def, Option.some.injEq]
    constructor
    · rintro ⟨h1, h2, h3⟩
      exact ⟨fun y hy => hy ▸ h1, ⟨fun y hy => (h2 y hy).symm, h3⟩⟩
    · rintro ⟨h1, h2, h3⟩
      exact ⟨h1 r rfl, fun y hy => (h2 y hy).symm, h3⟩

/-- Consecutive-pair characterization of `Chain'` through `get?`. -/
theorem chainGetOptIff {α : Type} (R : α → α → Prop) :
    ∀ (l : List α), List.Chain' R l ↔
      ∀ (i : Nat) (a b : α), l.get? i = some a → l.get? (i + 1) = some b → R a b := by
  intro l
  induction l with
  | nil =>
    constructor
    · intro _ i a b ha _
      simp at ha
    · intro _
      exact List.chain'_nil
  | cons x xs ih =>
    rw [List.chain'_cons']
    constructor
    · rintro ⟨hhd, htl⟩ i a b ha hb
      cases i with
      | zero =>
        simp only [List.get?_cons_zero, Option.some.injEq] at ha
        subst ha
        simp only [List.get?_cons_succ] at hb
        exact hhd b (by rw [← List.get?_zero]; exact hb)
      | succ j =>
        simp only [List.get?_cons_succ] at ha hb
        exact (ih.mp htl) j a b ha hb
    · intro h
      refine ⟨?_, ih.mpr ?_⟩
      · intro y hy
        refine h 0 x y rfl ?_
        simp only [List.get?_cons_succ, List.get?_zero]
        exact hy
      · intro j a b ha hb
        exact h (j + 1) a b (by simpa using ha) (by simpa using hb)

/-- The validation loop succeeds exactly when the records are chained
contiguously from the cursor and each text equals its slice of the
original. -/
theorem validateLoop_ok_iff (orig : PyStr) :
    ∀ (recs : List ChunkRec) (p : Nat),
    validateLoop orig p recs = .ok () ↔
      chainFrom p recs ∧ ∀ r ∈ recs, r.text = pySlice orig r.startPos r.endPos := by
  intro recs
  induction recs with
  | nil => intro p; simp [validateLoop, chainFrom]
  | cons r rs ih =>
    intro p
    unfold validateLoop chainFrom
    by_cases h1 : r.startPos < p
    · rw [if_pos h1]
      constructor
      · intro h
        exact absurd h (by simp)
      · rintro ⟨⟨he, _⟩, _⟩
        omega
    · rw [if_neg h1]
      by_cases h2 : p < r.startPos
      · rw [if_pos h2]
        constructor
        · intro h
          exact absurd h (by simp)
        · rintro ⟨⟨he, _⟩, _⟩
          omega
      · rw [if_neg h2]
        have hstart : r.startPos = p := by omega
        by_cases h3 : r.text ≠ pySlice orig r.startPos r.endPos
        · rw [if_pos h3]
          constructor
          · intro h
            exact absurd h (by simp)
          · rintro ⟨_, hall⟩
            exact absurd (hall r (List.mem_cons_self r rs)) h3
        · rw [if_neg h3]
          push_neg at h3
          rw [ih r.endPos]
          constructor
          · rintro ⟨hc, hall⟩
            refine ⟨⟨hstart, hc⟩, ?_⟩
            intro x hx
            rcases List.mem_cons.mp hx with rfl | hx
            · exact h3
            · exact hall x hx
          · rintro ⟨⟨_, hc⟩, hall⟩
            exact ⟨hc, fun x hx => hall x (List.mem_cons_of_mem r hx)⟩

/-- `validate_chunk_integrity` succeeds exactly when the loop succeeds and
the byte-coverage check passes. -/
theorem validate_ok_decomp (orig : PyStr) (recs : List ChunkRec) :
    validateChunkIntegrity orig recs = .ok () ↔
      (validateLoop orig 0 recs = .ok () ∧
       utf8Len orig = utf8Len ((recs.map ChunkRec.text).flatten)) := by
  unfold validateChunkIntegrity
  cases hl : validateLoop orig 0 recs with
  | error e => simp [hl]
  | ok u =>
    cases u
    by_cases hsum : utf8Len orig ≠ utf8Len ((recs.map ChunkRec.text).flatten)
    · rw [if_pos hsum]
      simp [hsum]
    · rw [if_neg hsum]
      push_neg at hsum
      simp [hsum]

/-- Contiguous records whose texts all match their slices concatenate to a
single slice of the original starting at the cursor. -/
theorem flatten_texts_slice (orig : PyStr) :
    ∀ (recs : List ChunkRec) (s : Nat),
    (∀ r ∈ recs, r.text ≠ []) →
    chainFrom s recs →
    (∀ r ∈ recs, r.text = pySlice orig r.startPos r.endPos) →
    ∃ E, s ≤ E ∧ (recs.map ChunkRec.text).flatten = pySlice orig s E := by
  intro recs
  induction recs with
  | nil =>
    intro s _ _ _
    exact ⟨s, le_refl s, by simp [pySlice, Nat.sub_self]⟩
  | cons r rs ih =>
    intro s hne hchain hsl
    obtain ⟨hstart, hchain2⟩ := hchain
    have htext : r.text = pySlice orig r.startPos r.endPos :=
      hsl r (List.mem_cons_self r rs)
    have hne0 : r.text ≠ [] := hne r (List.mem_cons_self r rs)
    have hlt : r.startPos < r.endPos := (pySlice_ne_nil orig _ _ (htext ▸ hne0)).1
    obtain ⟨E, hE, hflat⟩ := ih r.endPos (fun x hx => hne x (List.mem_cons_of_mem r hx))
      hchain2 (fun x hx => hsl x (List.mem_cons_of_mem r hx))
    refine ⟨E, by omega, ?_⟩
    rw [List.map_cons, List.flatten_cons, hflat, htext, hstart]
    exact pySlice_append orig s r.endPos E (by omega) hE

/-- Key coverage argument: if the records are pairwise contiguous, every
text is nonempty and matches its slice, and the byte sum covers the whole
original, then the first record must start at position 0 — a positive
start would leave the bytes before it uncovered. -/
theorem chain_start_zero (orig : PyStr) (recs : List ChunkRec)
    (hne : ∀ r ∈ recs, r.text ≠ [])
    (hchain : List.Chain' recContig recs)
    (hsl : ∀ r ∈ recs, r.text = pySlice orig r.startPos r.endPos)
    (hsum : (recs.map (fun r => utf8Len r.text)).sum = utf8Len orig) :
    ∀ r ∈ recs.head?, r.startPos = 0 := by
  cases recs with
  | nil =>
    intro r0 hr0
    simp at hr0
  | cons r rs =>
    intro r0 hr0
    simp only [List.head?_cons, Option.mem_def, Option.some.injEq] at hr0
    subst hr0
    by_contra hs0
    have hchainFrom : chainFrom r.startPos (r :: rs) := by
      rw [chainFrom_iff]
      exact ⟨by simp, hchain⟩
    obtain ⟨E, hE, hflat⟩ := flatten_texts_slice orig (r :: rs) r.startPos hne hchainFrom hsl
    have h1 : utf8Len orig = utf8Len (pySlice orig r.startPos E) := by
      rw [← hflat, ← sum_bytes_eq]
      exact hsum.symm
    have h2 : utf8Len (pySlice orig r.startPos E) ≤ utf8Len (orig.drop r.startPos) := by
      unfold pySlice
      exact utf8Len_take_le _ _
    have h3 : utf8Len orig =
        utf8Len (orig.take r.startPos) + utf8Len (orig.drop r.startPos) :=
      utf8Len_split orig r.startPos
    have hslice_ne : pySlice orig r.startPos r.endPos ≠ [] := by
      rw [← hsl r (List.mem_cons_self r rs)]
      exact hne r (List.mem_cons_self r rs)
    have hlen : r.startPos < orig.length := (pySlice_ne_nil orig _ _ hslice_ne).2
    have htake_ne : orig.take r.startPos ≠ [] := by
      intro h
      rw [List.take_eq_nil_iff] at h
      rcases h with h | h
      · omega
      · rw [h] at hlen
        simp at hlen
    have h4 : 1 ≤ utf8Len (orig.take r.startPos) := utf8Len_pos _ htake_ne
    omega

/-! ## Claim theorems -/

/-- C1 counterexample: with `overlap_size = 0` (a valid configuration), the
claim predicts output chunk 1 to be zero trailing characters of chunk 0,
a newline, then chunk 1, i.e. `['\n', 'b']`; the code's Python `[-0:]`
slice takes the whole previous chunk instead, giving `['a', '\n', 'b']`. -/
theorem c1_counterexample :
    addOverlap 0 [['a'], ['b']] ≠ [['a'], ['\n', 'b']] ∧
    addOverlap 0 [['a'], ['b']] = [['a'], ['a', '\n', 'b']] := by decide

/-- C1 (amended): for chunk sequences of length ≥ 2, `_add_overlap` keeps
chunk 0 unchanged and makes output chunk `i+1` equal to the Python
`[-overlap_size:]` slice of pre-overlap chunk `i` — the trailing
`min(overlap_size, len)` codepoints when `overlap_size > 0`, but the whole
previous chunk when `overlap_size = 0` — followed by a newline and chunk
`i+1`; codepoints are never split. -/
theorem c1_overlap_weaver (ov : Nat) (chunks : List PyStr) (h2 : 2 ≤ chunks.length) :
    (addOverlap ov chunks).length = chunks.length ∧
    (addOverlap ov chunks).get? 0 = chunks.get? 0 ∧
    ∀ (i : Nat) (prev cur : PyStr), chunks.get? i = some prev →
      chunks.get? (i + 1) = some cur →
      (addOverlap ov chunks).get? (i + 1) = some (pyTail ov prev ++ '\n' :: cur) := by
  match chunks with
  | [] => simp at h2
  | [c] => simp at h2
  | c :: c2 :: cs =>
    have hlen : ¬((c :: c2 :: cs).length ≤ 1) := by simp
    unfold addOverlap
    rw [if_neg hlen]
    refine ⟨by simp [weaveAux_length], rfl, ?_⟩
    intro i prev cur h1 hcur
    simp only [List.get?_cons_succ] at hcur ⊢
    exact weave_get? ov (c2 :: cs) c i prev cur h1 hcur

/-- C1 witness: the amended statement applied at
`overlap_size = 1`, `chunks = ["a", "b"]`, `i = 0`. -/
theorem c1_overlap_weaver_witness :
    (2 ≤ ([['a'], ['b']] : List PyStr).length) ∧
    (addOverlap 1 [['a'], ['b']]).get? 1 = some (pyTail 1 ['a'] ++ '\n' :: ['b']) :=
  ⟨by decide,
   (c1_overlap_weaver 1 [['a'], ['b']] (by decide)).2.2 0 ['a'] ['b'] (by decide) (by decide)⟩

/-- C2 counterexample: with `chunk_size = 10`, `overlap_size = 0` (a valid
configuration) and word units `"aaaaa"`, `"bbbbb"`, `split` returns the
single chunk `"aaaaa\nbbbbb"` of byte length 11 > 10; the chunk is not an
oversized chunk (it is not a single unit — every unit has length ≤ 10 and
the chunk equals none of them). -/
theorem c2_counterexample :
    utilsSplit pySplitWs 10 0 "aaaaa bbbbb".toList = ["aaaaa\nbbbbb".toList] ∧
    utf8Len "aaaaa\nbbbbb".toList = 11 ∧
    ¬ utf8Len "aaaaa\nbbbbb".toList ≤ 10 ∧
    "aaaaa\nbbbbb".toList ∉ pySplitWs "aaaaa bbbbb".toList ∧
    oversizedCount 10 (pySplitWs "aaaaa bbbbb".toList) = 0 := by
  decide

/-- C2 (amended): every chunk the assembler emits is either a unit whose
codepoint length exceeds `chunk_size`, or the separator-join of a nonempty
group of units whose codepoint lengths sum to at most `chunk_size`; the
budget bounds that sum, not the chunk's byte length, which can exceed
`chunk_size` through the uncounted separators and multi-byte encodings. -/
theorem c2_chunk_size_bound (sep : PyStr) (size : Nat) (units : List PyStr) (c : PyStr)
    (hc : c ∈ createChunksPre sep size units) :
    (∃ u ∈ units, c = u ∧ size < u.length) ∨
    (∃ g : List PyStr, g ≠ [] ∧ (∀ x ∈ g, x ∈ units) ∧ c = pyJoin sep g ∧
      (g.map List.length).sum ≤ size) := by
  rw [createChunksPre_eq_specGo] at hc
  exact specGo_chunk_shape sep size units units [] 0 (fun u hu => hu) (by simp)
    (by simp) (by simp) c hc

/-- C2 witness: the amended statement at the 11-byte joined chunk of the
counterexample input. -/
theorem c2_chunk_size_bound_witness :
    ("aaaaa\nbbbbb".toList ∈
      createChunksPre ['\n'] 10 ["aaaaa".toList, "bbbbb".toList]) ∧
    ((∃ u ∈ ["aaaaa".toList, "bbbbb".toList],
        "aaaaa\nbbbbb".toList = u ∧ 10 < u.length) ∨
     (∃ g : List PyStr, g ≠ [] ∧ (∀ x ∈ g, x ∈ ["aaaaa".toList, "bbbbb".toList]) ∧
        "aaaaa\nbbbbb".toList = pyJoin ['\n'] g ∧ (g.map List.length).sum ≤ 10)) :=
  ⟨by decide,
   c2_chunk_size_bound ['\n'] 10 ["aaaaa".toList, "bbbbb".toList]
     "aaaaa\nbbbbb".toList (by decide)⟩

/-- C3 counterexample: over the text `"éa"` with the single chunk `"éa"`,
the tracker records `[0, 2)` (codepoint positions), so
`end_position - start_position = 2`, while the record's size field — the
chunk's UTF-8 byte length — is 3. -/
theorem c3_counterexample :
    getChunkPositions ['é', 'a'] [['é', 'a']] = [(0, 2)] ∧
    utf8Len ['é', 'a'] = 3 ∧
    (2 - 0 : Nat) ≠ utf8Len ['é', 'a'] := by decide

/-- C3 (amended): the tracker yields one record per chunk, each with
`end_position - start_position` equal to the chunk's codepoint length (the
byte-length size field only for ASCII chunks), and start positions
monotonically non-decreasing across the sequence. -/
theorem c3_position_tracker (text : PyStr) (chunks : List PyStr) :
    (getChunkPositions text chunks).length = chunks.length ∧
    (∀ (i : Nat) (c : PyStr), chunks.get? i = some c →
      ∃ p : Nat × Nat, (getChunkPositions text chunks).get? i = some p ∧
        p.2 - p.1 = c.length) ∧
    List.Chain' (fun a b : Nat × Nat => a.1 ≤ b.1) (getChunkPositions text chunks) :=
  ⟨chunkPositionsGo_length text chunks 0,
   fun i c h => chunkPositionsGo_get? text chunks 0 i c h,
   chunkPositionsGo_chain text chunks 0⟩

/-- C3 witness: the amended statement applied at the text `"ab"` with
chunks `"a"`, `"b"`, record 1. -/
theorem c3_position_tracker_witness :
    (([['a'], ['b']] : List PyStr).get? 1 = some ['b']) ∧
    (∃ p : Nat × Nat, (getChunkPositions ['a', 'b'] [['a'], ['b']]).get? 1 = some p ∧
      p.2 - p.1 = (['b'] : PyStr).length) :=
  ⟨by decide,
   (c3_position_tracker ['a', 'b'] [['a'], ['b']]).2.1 1 ['b'] (by decide)⟩

/-- C4: over records with nonempty texts (the invariant `ChunkInfo`'s own
validator enforces), `validate_chunk_integrity` raises an error if and only
if some consecutive pair overlaps (`records[i].end > records[i+1].start`),
some consecutive pair has a gap (`records[i].end < records[i+1].start`),
some record's text differs from the original's
`[start_position:end_position]` slice, or the records' byte lengths do not
sum to the original's byte length; the loop's extra demand that the first
record start at 0 is subsumed — with matching slices and full byte
coverage a positive first start is impossible. -/
theorem c4_validator_iff (orig : PyStr) (recs : List ChunkRec)
    (hne : ∀ r ∈ recs, r.text ≠ []) :
    validateChunkIntegrity orig recs ≠ .ok () ↔
      ((∃ (i : Nat) (a b : ChunkRec), recs.get? i = some a ∧
          recs.get? (i + 1) = some b ∧ b.startPos < a.endPos) ∨
       (∃ (i : Nat) (a b : ChunkRec), recs.get? i = some a ∧
          recs.get? (i + 1) = some b ∧ a.endPos < b.startPos) ∨
       (∃ r ∈ recs, r.text ≠ pySlice orig r.startPos r.endPos) ∨
       (recs.map (fun r => utf8Len r.text)).sum ≠ utf8Len orig) := by
  constructor
  · intro hno
    by_contra hdisj
    push_neg at hdisj
    obtain ⟨hov, hgap, hslice, hsum⟩ := hdisj
    have hchain : List.Chain' recContig recs := by
      rw [chainGetOptIff recContig recs]
      intro i a b ha hb
      have h1 := hov i a b ha hb
      have h2 := hgap i a b ha hb
      unfold recContig
      omega
    have hhead := chain_start_zero orig recs hne hchain hslice hsum
    apply hno
    rw [validate_ok_decomp, validateLoop_ok_iff orig recs 0, chainFrom_iff]
    exact ⟨⟨⟨hhead, hchain⟩, hslice⟩, hsum.symm.trans (sum_bytes_eq recs)⟩
  · intro hdisj hok
    rw [validate_ok_decomp, validateLoop_ok_iff orig recs 0, chainFrom_iff] at hok
    obtain ⟨⟨⟨hhead, hchain⟩, hslices⟩, hflat⟩ := hok
    have hsum : (recs.map (fun r => utf8Len r.text)).sum = utf8Len orig :=
      (sum_bytes_eq recs).trans hflat.symm
    rcases hdisj with ⟨i, a, b, ha, hb, hlt⟩ | ⟨i, a, b, ha, hb, hlt⟩ |
      ⟨r, hr, hner⟩ | hs
    · have hco := (chainGetOptIff recContig recs).mp hchain i a b ha hb
      unfold recContig at hco
      omega
    · have hco := (chainGetOptIff recContig recs).mp hchain i a b ha hb
      unfold recContig at hco
      omega
    · exact hner (hslices r hr)
    · exact hs hsum

/-- C4 witness: the equivalence applied to the original `"ab"` with the
single record `("ab", 0, 2)`, whose text is nonempty. -/
theorem c4_validator_iff_witness :
    (∀ r ∈ [ChunkRec.mk "ab".toList 0 2], r.text ≠ []) ∧
    (validateChunkIntegrity "ab".toList [ChunkRec.mk "ab".toList 0 2] ≠ .ok () ↔
      ((∃ (i : Nat) (a b : ChunkRec),
          [ChunkRec.mk "ab".toList 0 2].get? i = some a ∧
          [ChunkRec.mk "ab".toList 0 2].get? (i + 1) = some b ∧
          b.startPos < a.endPos) ∨
       (∃ (i : Nat) (a b : ChunkRec),
          [ChunkRec.mk "ab".toList 0 2].get? i = some a ∧
          [ChunkRec.mk "ab".toList 0 2].get? (i + 1) = some b ∧
          a.endPos < b.startPos) ∨
       (∃ r ∈ [ChunkRec.mk "ab".toList 0 2],
          r.text ≠ pySlice "ab".toList r.startPos r.endPos) ∨
       ([ChunkRec.mk "ab".toList 0 2].map (fun r => utf8Len r.text)).sum ≠
         utf8Len "ab".toList)) :=
  ⟨by decide, c4_validator_iff "ab".toList [ChunkRec.mk "ab".toList 0 2] (by decide)⟩

/-- C5 counterexample: at `chunk_size = 10` and units `"aaaaa", "aaaaa"`,
counting the newline separator toward the running budget (as the claim
states) would give `5 + 1 + 5 = 11 > 10` and two chunks; the code does not
count it (`current_length += unit_length` only) and packs one 11-character
chunk. -/
theorem c5_counterexample :
    createChunksPre ['\n'] 10 ["aaaaa".toList, "aaaaa".toList] ≠
      specAssembleCounted ['\n'] 10 ["aaaaa".toList, "aaaaa".toList] ∧
    createChunksPre ['\n'] 10 ["aaaaa".toList, "aaaaa".toList] = ["aaaaa\naaaaa".toList] ∧
    specAssembleCounted ['\n'] 10 ["aaaaa".toList, "aaaaa".toList] =
      ["aaaaa".toList, "aaaaa".toList] := by decide

/-- C5 (amended): the assembler is exactly the left-to-right greedy pass of
the claim — oversized unit flushes and is emitted alone, a unit with
`running_length + unit_length ≤ chunk_size` joins the current chunk (the
boundary-equal case stays), otherwise flush and restart — but lengths are
Python codepoint counts and the joining separator is not counted toward the
running length (it does appear in the chunk text). -/
theorem c5_assembler_greedy (sep : PyStr) (size : Nat) (units : List PyStr) :
    createChunksPre sep size units = specAssemble sep size units :=
  createChunksPre_eq_specGo sep size units

/-- C6 counterexample: `chunk_size = 10`, `overlap_size = 9`, word strategy,
text `"aaaaaaaa bbbbbbbb cccccccccccc"`: exactly one unit exceeds the
budget, yet the reported `oversized_chunks` of `main.py` (final chunks with
`len > chunk_size`, counted after overlap weaving) is 2. -/
theorem c6_counterexample :
    oversizedCount 10 (utilsSplit pySplitWs 10 9 "aaaaaaaa bbbbbbbb cccccccccccc".toList) = 2 ∧
    oversizedCount 10 (pySplitWs "aaaaaaaa bbbbbbbb cccccccccccc".toList) = 1 := by decide

/-- C6 (amended): wherever an oversized unit occurs, the assembler's output
decomposes as `chunks(pre) ++ u :: chunks(post)` — whatever accumulation is
pending after the units before `u` is flushed as its own chunk exactly as
at end of input, the oversized unit `u` is emitted verbatim as exactly one
chunk of its own at that position, and the remaining units are processed
from a reset (empty) accumulation; the reported `oversized_chunks`,
however, is computed on the final post-overlap chunk list as the number of
chunks with `len > chunk_size` and can exceed the number of oversized
units. -/
theorem c6_oversized_unit (sep : PyStr) (size : Nat) (pre post : List PyStr) (u : PyStr)
    (hov : size < u.length) :
    createChunksPre sep size (pre ++ u :: post) =
      createChunksPre sep size pre ++ u :: createChunksPre sep size post := by
  unfold createChunksPre
  rw [List.foldl_append, List.foldl_cons]
  set st1 := List.foldl (stepUnit sep size) ⟨[], [], 0⟩ pre with hst1
  have hstep : stepUnit sep size st1 u =
      ⟨st1.chunks ++ (if st1.cur = [] then [] else [pyJoin sep st1.cur]) ++ [u], [], 0⟩ := by
    simp [stepUnit, hov]
  rw [hstep,
    foldl_specGo sep size post
      (st1.chunks ++ (if st1.cur = [] then [] else [pyJoin sep st1.cur]) ++ [u]) [] 0,
    foldl_specGo sep size post [] [] 0]
  unfold finalizeAsm
  simp [List.append_assoc]

/-- C6 witness: the decomposition applied with pending units
`"aaaaaaaa", "bbbbbbbb"` before the 12-character oversized unit at
`chunk_size = 10`: the pending accumulation `"bbbbbbbb"` is flushed, the
oversized unit forms exactly one chunk, and nothing follows. -/
theorem c6_oversized_unit_witness :
    (10 < "cccccccccccc".toList.length) ∧
    createChunksPre ['\n'] 10
        (["aaaaaaaa".toList, "bbbbbbbb".toList] ++ "cccccccccccc".toList :: []) =
      createChunksPre ['\n'] 10 ["aaaaaaaa".toList, "bbbbbbbb".toList] ++
        "cccccccccccc".toList :: createChunksPre ['\n'] 10 [] :=
  ⟨by decide,
   c6_oversized_unit ['\n'] 10 ["aaaaaaaa".toList, "bbbbbbbb".toList] []
     "cccccccccccc".toList (by decide)⟩

/-- C7: evidence of the code bug — a body that fails with a data-integrity
(validation) fault inside the guard surfaces as a memory error, because
`memory_limit`'s `try` block contains the `yield` and its
`except Exception` clause converts any body exception into `MemoryError`;
the prior limit and alarm are still restored on exit. -/
theorem c7_guard_converts_validation (seconds origLimit maxBytes : Nat) :
    (splitTextGuard seconds origLimit maxBytes (.error .validationFault)).1 =
      .error .memoryBreach ∧
    (splitTextGuard seconds origLimit maxBytes (.error .validationFault)).2.1 = origLimit ∧
    (splitTextGuard seconds origLimit maxBytes (.error .validationFault)).2.2 = 0 :=
  ⟨rfl, rfl, rfl⟩

/-- C8 counterexample: the `utils.py` variant accepts `chunk_size = 9`
(it only rejects `chunk_size <= 0`), contradicting the claim that
configuration validation rejects any `chunk_size` below 10. -/
theorem c8_counterexample : validateParamsU 9 0 = .ok () := rfl

/-- C8 (amended): the `chatGPT-refactory.py` validator accepts
`overlap_size = chunk_size - 1`, rejects `overlap_size = chunk_size`, and
rejects `chunk_size = 9` (its construction fails before any splitting
work); the `utils.py` validator likewise accepts `chunk_size - 1` and
rejects equality, but only rejects `chunk_size ≤ 0` and accepts
`chunk_size = 9`. -/
theorem c8_config_validation (cs : Int) (h : 10 ≤ cs) :
    validateParamsG cs (cs - 1) = .ok () ∧
    (validateParamsG cs cs).isOk = false ∧
    (validateParamsG 9 0).isOk = false ∧
    (mkSplitterG 9 0).isOk = false ∧
    validateParamsU cs (cs - 1) = .ok () ∧
    (validateParamsU cs cs).isOk = false ∧
    validateParamsU 9 0 = .ok () := by
  refine ⟨?_, ?_, by decide, by decide, ?_, ?_, rfl⟩
  · unfold validateParamsG
    split_ifs <;> first | rfl | omega
  · unfold validateParamsG
    split_ifs <;> first | rfl | omega
  · unfold validateParamsU
    split_ifs <;> first | rfl | omega
  · unfold validateParamsU
    split_ifs <;> first | rfl | omega

/-- C8 witness: the amended statement at `chunk_size = 10`. -/
theorem c8_config_validation_witness :
    ((10 : Int) ≤ 10) ∧
    (validateParamsG 10 (10 - 1) = .ok () ∧
     (validateParamsG 10 10).isOk = false ∧
     (validateParamsG 9 0).isOk = false ∧
     (mkSplitterG 9 0).isOk = false ∧
     validateParamsU 10 (10 - 1) = .ok () ∧
     (validateParamsU 10 10).isOk = false ∧
     validateParamsU 9 0 = .ok ()) :=
  ⟨by decide, c8_config_validation 10 (by decide)⟩

/-- C10: given nonempty units, every chunk string emitted by
`_create_chunks` (including its trailing overlap weaving) is nonempty: the
flush-on-overflow branch cannot fire on an empty accumulation, since an
empty accumulation has running length 0 and every non-oversized unit fits
against it. -/
theorem c10_nonempty_chunks (sep : PyStr) (size ov : Nat) (units : List PyStr)
    (hu : ∀ u ∈ units, u ≠ []) :
    ∀ c ∈ utilsCreateChunks sep size ov units, c ≠ [] := by
  intro c hc
  unfold utilsCreateChunks at hc
  refine addOverlap_ne_nil ov _ ?_ c hc
  intro x hx
  rw [createChunksPre_eq_specGo] at hx
  rcases specGo_chunk_shape sep size units units [] 0 (fun u hu' => hu') (by simp)
      (by simp) (by simp) x hx with ⟨u, huU, rfl, _⟩ | ⟨g, hg, hgU, rfl, _⟩
  · exact hu x huU
  · exact pyJoin_ne_nil sep g hg (fun y hy => hu y (hgU y hy))

/-- C10 witness: the statement applied at a single one-character unit and
the chunk it produces. -/
theorem c10_nonempty_chunks_witness :
    (∀ u ∈ ([[ 'a' ]] : List PyStr), u ≠ []) ∧
    (['a'] ∈ utilsCreateChunks ['\n'] 10 5 [['a']]) ∧ (['a'] : PyStr) ≠ [] :=
  ⟨by decide, by decide,
   c10_nonempty_chunks ['\n'] 10 5 [['a']] (by decide) ['a'] (by decide)⟩

/-- C9 counterexample: for all-whitespace input, `TextSplitter.split` of
`utils.py` returns normally with the empty chunk list — it does not raise
an empty-input error. -/
theorem c9_counterexample :
    utilsSplit pySplitWs 300 50 "   ".toList = [] ∧
    utilsSplit pySplitWs 300 50 [] = [] := by decide

/-- C9 (amended): on empty or all-whitespace text, the `utils.py` engine's
`split` returns an empty chunk list before any segmentation work (no error
is raised), while the langchain `TextInput` validator does reject such text
with an error before splitting. -/
theorem c9_empty_input (seg : PyStr → List PyStr) (size ov : Nat) (text : PyStr)
    (h : text.all pySpaceChar = true) :
    utilsSplit seg size ov text = [] ∧ (validateTextInput text).isOk = false := by
  constructor
  · unfold utilsSplit
    rw [if_pos h]
  · unfold validateTextInput
    rw [if_pos h]
    rfl

/-- C9 witness: the amended statement at the three-space input. -/
theorem c9_empty_input_witness :
    ("   ".toList.all pySpaceChar = true) ∧
    (utilsSplit pySplitWs 300 50 "   ".toList = [] ∧
     (validateTextInput "   ".toList).isOk = false) :=
  ⟨by decide, c9_empty_input pySplitWs 300 50 "   ".toList (by decide)⟩
